import Mathlib

/-!
Verification of the click-track analysis pipeline (transient detection,
spectral-centroid feature extraction, 2-means clustering, downbeat/meter
resolution, tempo segmentation) against its natural-language specification.

The JavaScript sources are shallowly embedded: sample amplitudes and times
are rationals (the sources' IEEE doubles are modelled exactly by ℚ; the
float literals 0.35, 0.08, 0.01 become 7/20, 2/25, 1/100), arrays become
lists, and the external Web Audio FFT (AnalyserNode) together with the
transcendental dB→linear conversion `Math.pow(10, db/20)` are abstracted
as explicit function parameters, since their outputs are opaque platform
data as far as the analysis code is concerned.
-/

attribute [local semireducible] Rat.mul Rat.inv Rat.add Rat.sub

namespace ClickTrack

/-! ### Transient detection (script.js `detectClicks` / `refineToLocalPeak`) -/

/-- Global peak absolute amplitude, computed by a linear fold
(script.js lines 194-198). -/
def maxAbs (s : List ℚ) : ℚ :=
  s.foldl (fun m v => max m |v|) 0

/-- Embeds `minGapSamples = Math.floor(0.08 * sr)` (script.js line 202). -/
def minGapSamples (sr : ℕ) : ℕ := 2 * sr / 25

/-- Embeds `w = Math.floor(0.01 * sr)` of `refineToLocalPeak` (script.js line 223). -/
def refineWindow (sr : ℕ) : ℕ := sr / 100

/-- Embeds `Math.floor(w / 2)`, the half-width of the refinement neighbourhood. -/
def refineHalf (sr : ℕ) : ℕ := refineWindow sr / 2

/-- Embeds `refineToLocalPeak(samples, startIndex, sr)` (script.js lines 221-237):
argmax of `|samples[i]|` over `[max(0, startIndex-half), min(n-1, startIndex+half)]`,
first maximum wins, initial best is `(startIndex, 0)`. -/
def refineToLocalPeak (s : List ℚ) (startIndex half : ℕ) : ℕ :=
  let lo := startIndex - half
  let hi := min (s.length - 1) (startIndex + half)
  ((List.range' lo (hi + 1 - lo)).foldl
    (fun best i => if |s.getD i 0| > best.2 then (i, |s.getD i 0|) else best)
    (startIndex, (0 : ℚ))).1

/-- The least index `j ≥ start` whose absolute amplitude exceeds the
threshold; `none` if no such index exists.  This is where the scan of
script.js lines 207-216 next fires, since indices within `minGapSamples`
of the last accepted (refined) click can never satisfy the gap test. -/
def findTrigger (s : List ℚ) (thr : ℚ) (start : ℕ) : Option ℕ :=
  (List.range s.length).find? (fun j => decide (start ≤ j) && decide (thr < |s.getD j 0|))

/-- The detection loop, returning refined click indices.  After accepting a
refined index `r` the scan resumes and the next candidate is the least
`j ≥ r + minGap + 1` above threshold (the `i = refinedIndex` jump of
script.js line 214 only revisits indices whose gap test fails).  The fuel
`s.length` is sufficient: every recursive call advances `start` by at
least one, so at most `s.length` clicks are ever produced. -/
def detectAux (s : List ℚ) (thr : ℚ) (minGap half : ℕ) : ℕ → ℕ → List ℕ
  | 0, _ => []
  | fuel + 1, start =>
    match findTrigger s thr start with
    | none => []
    | some j =>
      let r := refineToLocalPeak s j half
      r :: detectAux s thr minGap half fuel (r + minGap + 1)

/-- Embeds `detectClicks(samples, sr)` (script.js lines 192-219): adaptive
threshold `0.35 * maxAbs`, minimum gap `0.08 s`, candidate refined to the
local peak; returns click times in seconds. -/
def detectClicks (s : List ℚ) (sr : ℕ) : List ℚ :=
  let thr := maxAbs s * (7 / 20)
  (detectAux s thr (minGapSamples sr) (refineHalf sr) s.length 0).map
    (fun (r : ℕ) => (r : ℚ) / (sr : ℚ))

/-! ### Tempo segmentation (part_003 `segmentTempo`, lines 306-355) -/

/-- Embeds `median(arr)` of part_003 lines 191-196: sort ascending, take the
middle element (odd length) or the mean of the two middle ones (even),
0 on the empty list. -/
def median (l : List ℚ) : ℚ :=
  if l = [] then 0
  else
    let a := l.insertionSort (· ≤ ·)
    let mid := l.length / 2
    if l.length % 2 = 1 then a.getD mid 0 else (a.getD (mid - 1) 0 + a.getD mid 0) / 2

/-- Instantaneous BPM per click interval: `60 / dt`, or 0 for a
non-positive interval (part_003 lines 310-314). -/
def instBpms (clicks : List ℚ) : List ℚ :=
  (clicks.zip clicks.tail).map (fun p => if 0 < p.2 - p.1 then 60 / (p.2 - p.1) else 0)

/-- Median filter of width `smoothWindow` with window clipping at the ends
(part_003 lines 317-324). -/
def smoothBpms (bpms : List ℚ) (win : ℕ) : List ℚ :=
  (List.range bpms.length).map (fun i =>
    median (((List.range bpms.length).filter
      (fun j => decide (i - win / 2 ≤ j) && decide (j ≤ i + win / 2))).map
      (fun j => bpms.getD j 0)))

/-- A tempo segment as built by part_003 `segmentTempo`. -/
structure Segment where
  startTime : ℚ
  endTime : ℚ
  bpm : ℚ
  startClickIndex : ℕ
  endClickIndex : ℕ
  deriving DecidableEq, Repr

/-- The final segment pushed after the loop (part_003 lines 346-352). -/
def finalSeg (clicks : List ℚ) (segStart : ℕ) (cur : ℚ) : Segment :=
  ⟨clicks.getD segStart 0, clicks.getD (clicks.length - 1) 0, cur, segStart, clicks.length - 1⟩

/-- The segment pushed when the smoothed BPM at index `i` leaves tolerance
(part_003 lines 333-343). -/
def breakSeg (clicks : List ℚ) (segStart i : ℕ) (cur : ℚ) : Segment :=
  ⟨clicks.getD segStart 0, clicks.getD i 0, cur, segStart, i⟩

/-- The segment-building loop of part_003 lines 327-353, iterating `i`
over `1 .. sm.length - 1` with state `(segStart, current)`.  The fuel is
`sm.length`, which never runs out when the loop is entered at `i = 1`. -/
def buildFrom (clicks sm : List ℚ) (tol : ℚ) : ℕ → ℕ → ℕ → ℚ → List Segment
  | 0, _, segStart, cur => [finalSeg clicks segStart cur]
  | fuel + 1, i, segStart, cur =>
    if i < sm.length then
      if tol < |sm.getD i 0 - cur| then
        breakSeg clicks segStart i cur :: buildFrom clicks sm tol fuel (i + 1) i (sm.getD i 0)
      else buildFrom clicks sm tol fuel (i + 1) segStart cur
    else [finalSeg clicks segStart cur]

/-- Embeds `segmentTempo(clicks, toleranceBpm, smoothWindow)` (part_003 lines
306-355): instantaneous BPM per interval, median smoothing, then greedy
segmentation that closes the current segment whenever the smoothed BPM
deviates from the running value by more than the tolerance. -/
def segmentTempo (clicks : List ℚ) (tol : ℚ) (win : ℕ) : List Segment :=
  if clicks.length < 2 then []
  else
    let sm := smoothBpms (instBpms clicks) win
    buildFrom clicks sm tol sm.length 1 0 (sm.getD 0 0)

/-! ### 2-means clustering and downbeat classification
(script.js `classifyByCentroidKMeans`, lines 301-353) -/

/-- A click annotated with its spectral centroid. -/
structure FeatureEvent where
  time : ℚ
  centroid : ℚ
  deriving DecidableEq, Repr

/-- A classified beat. -/
structure ClassifiedEvent where
  time : ℚ
  centroid : ℚ
  isDownbeat : Bool
  deriving DecidableEq, Repr

/-- Assignment test of the k-means loop: a value belongs to cluster 0 when
it is at least as close to the first center (ties to cluster 0,
script.js lines 319 and 337 and 345). -/
def inC0 (c0 c1 v : ℚ) : Bool :=
  decide (|v - c0| ≤ |v - c1|)

/-- One k-means update (script.js lines 315-327): recompute each center as
its cluster mean, retaining the previous center for an empty cluster. -/
def kmeansUpdate (values : List ℚ) (c0 c1 : ℚ) : ℚ × ℚ :=
  let cl0 := values.filter (fun v => inC0 c0 c1 v)
  let cl1 := values.filter (fun v => !inC0 c0 c1 v)
  (if cl0.length ≠ 0 then cl0.sum / cl0.length else c0,
   if cl1.length ≠ 0 then cl1.sum / cl1.length else c1)

/-- The k-means iteration of script.js lines 314-331: at most 20 updates,
stopping early (and keeping the pre-update centers) once both centers move
by less than `1e-6`. -/
def kmeansLoop (values : List ℚ) : ℕ → ℚ → ℚ → ℚ × ℚ
  | 0, c0, c1 => (c0, c1)
  | k + 1, c0, c1 =>
    let nc := kmeansUpdate values c0 c1
    if |nc.1 - c0| < 1 / 1000000 ∧ |nc.2 - c1| < 1 / 1000000 then (c0, c1)
    else kmeansLoop values k nc.1 nc.2

/-- Initial centers at the 25th/75th percentile of the sorted centroid
values (script.js lines 306-308), then the k-means iteration; returns the
final centers. -/
def finalCenters (events : List FeatureEvent) : ℚ × ℚ :=
  let values := events.map (·.centroid)
  let sorted := values.insertionSort (· ≤ ·)
  kmeansLoop values 20 (sorted.getD (values.length / 4) 0)
    (sorted.getD (3 * values.length / 4) 0)

/-- Size of cluster 0 under the final centers. -/
def clusterSize0 (events : List FeatureEvent) : ℕ :=
  ((events.map (·.centroid)).filter
    (fun v => inC0 (finalCenters events).1 (finalCenters events).2 v)).length

/-- Size of cluster 1 under the final centers. -/
def clusterSize1 (events : List FeatureEvent) : ℕ :=
  ((events.map (·.centroid)).filter
    (fun v => !inC0 (finalCenters events).1 (finalCenters events).2 v)).length

/-- Embeds `classifyByCentroidKMeans(events)` (script.js lines 301-353): 2-means
on the centroid values, then the smaller cluster (ties to cluster 0) is
marked as the downbeat cluster. -/
def classifyByCentroidKMeans (events : List FeatureEvent) : List ClassifiedEvent :=
  if events = [] then []
  else
    let c := finalCenters events
    let downCluster : ℕ := if clusterSize0 events ≤ clusterSize1 events then 0 else 1
    events.map (fun e =>
      ⟨e.time, e.centroid, (if inC0 c.1 c.2 e.centroid then 0 else 1) = downCluster⟩)

/-! ### Per-beat BPM (script.js `computeBpmPerBeat` / `medianSmooth`,
lines 358-393), used downstream of detection -/

/-- A beat with its derived BPM. -/
structure BeatEvent where
  time : ℚ
  centroid : ℚ
  isDownbeat : Bool
  bpm : ℚ
  deriving DecidableEq, Repr

/-- Embeds `medianSmooth(arr, win)` (script.js lines 379-393): median over the
window restricted to positive entries, keeping the original value when no
positive entry is in the window. -/
def medianSmooth (arr : List ℚ) (win : ℕ) : List ℚ :=
  (List.range arr.length).map (fun i =>
    let a := ((List.range arr.length).filter
      (fun j => decide (i - win / 2 ≤ j) && decide (j ≤ i + win / 2)
        && decide (0 < arr.getD j 0))).map (fun j => arr.getD j 0)
    if a = [] then arr.getD i 0 else
      let srt := a.insertionSort (· ≤ ·)
      srt.getD (a.length / 2) 0)

/-- Embeds `computeBpmPerBeat(classifiedEvents)` (script.js lines 358-377):
sort by time, instantaneous BPM per interval (first entry 0), median
smoothing with window 5. -/
def computeBpmPerBeat (classified : List ClassifiedEvent) : List BeatEvent :=
  let events := classified.insertionSort (fun a b => a.time ≤ b.time)
  if events.length < 2 then events.map (fun e => ⟨e.time, e.centroid, e.isDownbeat, 0⟩)
  else
    let inst := 0 :: (events.zip events.tail).map (fun p =>
      if 0 < p.2.time - p.1.time then 60 / (p.2.time - p.1.time) else 0)
    let smooth := medianSmooth inst 5
    (List.range events.length).map (fun i =>
      let e := events.getD i ⟨0, 0, false⟩
      ⟨e.time, e.centroid, e.isDownbeat, smooth.getD i 0⟩)

/-! ### Meter inference (script.js `inferBeatsPerBar`, lines 1095-1124) -/

/-- Indices (from `k` upward) whose label equals `lab`
(the `idxs` loop of script.js lines 1104-1107). -/
def idxsOf (lab : ℕ) : ℕ → List ℕ → List ℕ
  | _, [] => []
  | k, l :: ls => if l = lab then k :: idxsOf lab (k + 1) ls else idxsOf lab (k + 1) ls

/-- Worker for `dedupFirst`, accumulating the values already seen in
reverse order. -/
def dedupFirstGo (seen : List ℕ) : List ℕ → List ℕ
  | [] => seen.reverse
  | x :: xs => if x ∈ seen then dedupFirstGo seen xs else dedupFirstGo (x :: seen) xs

/-- Distinct values of a list in order of first occurrence — the iteration
order of the JS `Map` histogram (insertion order). -/
def dedupFirst (l : List ℕ) : List ℕ :=
  dedupFirstGo [] l

/-- Embeds `inferBeatsPerBar(clicks, labels, preferMinority = true)` (script.js
lines 1095-1124); the `clicks` argument is unused by the computation, so
the embedding takes only the labels.  Returns `(beatsPerBar, downLabel)`:
the minority label is the downbeat label, and `beatsPerBar` is the mode of
the gaps between consecutive minority indices restricted to `[2,16]`,
defaulting to 4 (ties broken by first occurrence, strict improvement
only). -/
def inferBeatsPerBar (labels : List ℕ) : ℕ × ℕ :=
  let count0 := (labels.filter (fun l => l = 0)).length
  let count1 := labels.length - count0
  let downLabel : ℕ := if count0 ≤ count1 then 0 else 1
  let idxs := idxsOf downLabel 0 labels
  if idxs.length < 2 then (4, downLabel)
  else
    let gaps := (idxs.zip idxs.tail).map (fun p => p.2 - p.1)
    let valid := gaps.filter (fun g => decide (2 ≤ g) && decide (g ≤ 16))
    let best := (dedupFirst valid).foldl
      (fun acc g => if (valid.count g : ℤ) > acc.2 then (g, (valid.count g : ℤ)) else acc)
      (4, (-1 : ℤ))
    (best.1, downLabel)

/-! ### Downbeat grid alignment (script.js `alignDownbeatsByPhase`,
lines 1126-1158) -/

/-- The phase score of script.js lines 1137-1144: +2 for a grid downbeat
with the downbeat tone, -1 for a grid downbeat without it, -1/2 for the
downbeat tone off the grid, iterated over the labels with their indices. -/
def gridScoreAux (downLabel n phase : ℕ) : ℕ → List ℕ → ℚ
  | _, [] => 0
  | i, l :: ls =>
    (if ((i : ℤ) - phase) % n = 0 then
       if l = downLabel then 2 else -1
     else if l = downLabel then -1/2 else 0)
    + gridScoreAux downLabel n phase (i + 1) ls

/-- Total score of a candidate phase. -/
def gridScore (labels : List ℕ) (downLabel n phase : ℕ) : ℚ :=
  gridScoreAux downLabel n phase 0 labels

/-- The phase maximizing the score (script.js lines 1134-1149): strict
improvement starting from score `-Infinity`, so the first phase always
loads and ties keep the earlier phase. -/
def bestPhaseFor (labels : List ℕ) (downLabel n : ℕ) : ℕ :=
  (((List.range n).foldl
    (fun acc phase =>
      match acc with
      | none => some (gridScore labels downLabel n phase, phase)
      | some bs => if gridScore labels downLabel n phase > bs.1 then
          some (gridScore labels downLabel n phase, phase) else acc)
    none).getD (0, 0)).2

/-- The downbeat set construction of script.js lines 1152-1156: the sample
index of every click whose position is on the chosen grid, collected while
walking the clicks with their indices. -/
def gridSet (n phase : ℕ) : ℕ → List ℕ → List ℕ
  | _, [] => []
  | i, c :: cs =>
    if ((i : ℤ) - phase) % n = 0 then c :: gridSet n phase (i + 1) cs
    else gridSet n phase (i + 1) cs

/-- Embeds `alignDownbeatsByPhase(clicks, labels, beatsPerBar, downLabel)`
(script.js lines 1126-1158), with clicks represented by their sample
indices (the only field the function reads).  A missing or sub-2
`beatsPerBar` falls back to 4; returns the best phase and the set (as a
list, queried by membership) of sample indices on the `(N, p)` grid. -/
def alignDownbeatsByPhase (clicksIdx labels : List ℕ) (beatsPerBar downLabel : ℕ) :
    ℕ × List ℕ :=
  let n := if beatsPerBar < 2 then 4 else beatsPerBar
  let p := bestPhaseFor labels downLabel n
  (p, gridSet n p 0 clicksIdx)

/-! ### Spectral centroid feature extraction (script.js
`analyzeCentroidOffline` / `spectralCentroid`, lines 242-296).
The FFT performed by the Web Audio `AnalyserNode` and the dB→linear
conversion `Math.pow(10, db/20)` are abstracted as the parameters `fft`
and `mag`. -/

/-- Embeds `spectralCentroid(freqDataDb, sampleRate, fftSize)` (script.js lines
273-296): amplitude-weighted mean frequency over the band 200 Hz to
`min(6000, nyquist)` Hz, 0 when the total magnitude is 0. -/
def spectralCentroid (mag : ℚ → ℚ) (freqDataDb : List ℚ) (sr fftSize : ℕ) : ℚ :=
  let nyquist : ℚ := (sr : ℚ) / 2
  let maxHz : ℚ := min 6000 nyquist
  let minBin : ℕ := ⌊(200 / nyquist) * (freqDataDb.length : ℚ)⌋₊
  let maxBin : ℕ := min (freqDataDb.length - 1) ⌊(maxHz / nyquist) * (freqDataDb.length : ℚ)⌋₊
  let idx := List.range' minBin (maxBin + 1 - minBin)
  let w := (idx.map (fun (i : ℕ) => ((i : ℚ) * sr / fftSize) * mag (freqDataDb.getD i 0))).sum
  let m := (idx.map (fun (i : ℕ) => mag (freqDataDb.getD i 0))).sum
  if m ≠ 0 then w / m else 0

/-- Embeds `analyzeCentroidOffline(samples, sr, timeSec)` (script.js lines
242-271): start index `floor(timeSec * sr)`; returns 0 when `start < 0`
or `start + fftSize ≥ samples.length`, otherwise renders the 2048-sample
slice through the (abstracted) FFT and takes its spectral centroid. -/
def analyzeCentroidOffline (fft : List ℚ → List ℚ) (mag : ℚ → ℚ)
    (s : List ℚ) (sr : ℕ) (t : ℚ) : ℚ :=
  let start : ℤ := ⌊t * (sr : ℚ)⌋
  if start < 0 ∨ (s.length : ℤ) ≤ start + 2048 then 0
  else spectralCentroid mag (fft ((s.drop start.toNat).take 2048)) sr 2048

/-- The feature-extraction loop of script.js lines 79-83: one
`FeatureEvent` per click time, in order. -/
def analyzeAll (fft : List ℚ → List ℚ) (mag : ℚ → ℚ)
    (s : List ℚ) (sr : ℕ) (clickTimes : List ℚ) : List FeatureEvent :=
  clickTimes.map (fun t => ⟨t, analyzeCentroidOffline fft mag s sr t⟩)

/-! ### Supporting lemmas -/

/-- A value is always at least as close to a center as to itself. -/
theorem inC0_same (c v : ℚ) : inC0 c c v = true := by
  simp [inC0]

/-- A filter and its complement partition the length of a list. -/
theorem length_filter_partition (l : List ℚ) (p : ℚ → Bool) :
    (l.filter p).length + (l.filter (fun v => !p v)).length = l.length := by
  induction l with
  | nil => rfl
  | cons x xs ih => cases hx : p x <;> simp [List.filter_cons, hx] <;> omega

/-- Elements produced by `dedupFirstGo` come from the seen accumulator or
the remaining input. -/
theorem dedupFirstGo_subset :
    ∀ (l seen : List ℕ) (x : ℕ), x ∈ dedupFirstGo seen l → x ∈ seen ∨ x ∈ l := by
  intro l
  induction l with
  | nil =>
    intro seen x hx
    left
    simpa [dedupFirstGo, List.mem_reverse] using hx
  | cons y ys ih =>
    intro seen x hx
    by_cases hy : y ∈ seen
    · rcases ih seen x (by simpa [dedupFirstGo, hy] using hx) with h | h
      · exact Or.inl h
      · exact Or.inr (List.mem_cons_of_mem _ h)
    · rcases ih (y :: seen) x (by simpa [dedupFirstGo, hy] using hx) with h | h
      · rcases List.mem_cons.1 h with h | h
        · exact Or.inr (h ▸ List.mem_cons_self _ _)
        · exact Or.inl h
      · exact Or.inr (List.mem_cons_of_mem _ h)

/-- The histogram-mode fold of `inferBeatsPerBar` stays inside `[2,16]`
when its accumulator and all keys do. -/
theorem modeFold_range (valid : List ℕ) :
    ∀ (keys : List ℕ) (acc : ℕ × ℤ), 2 ≤ acc.1 → acc.1 ≤ 16 →
      (∀ g ∈ keys, 2 ≤ g ∧ g ≤ 16) →
      2 ≤ (keys.foldl
          (fun acc g => if (valid.count g : ℤ) > acc.2 then (g, (valid.count g : ℤ)) else acc)
          acc).1
      ∧ (keys.foldl
          (fun acc g => if (valid.count g : ℤ) > acc.2 then (g, (valid.count g : ℤ)) else acc)
          acc).1 ≤ 16 := by
  intro keys
  induction keys with
  | nil => intro acc h2 h16 _; exact ⟨h2, h16⟩
  | cons g gs ih =>
    intro acc h2 h16 hk
    simp only [List.foldl_cons]
    by_cases hg : (valid.count g : ℤ) > acc.2
    · rw [if_pos hg]
      exact ih _ (hk g (List.mem_cons_self _ _)).1 (hk g (List.mem_cons_self _ _)).2
        (fun x hx => hk x (List.mem_cons_of_mem _ hx))
    · rw [if_neg hg]
      exact ih _ h2 h16 (fun x hx => hk x (List.mem_cons_of_mem _ hx))

/-! ### Claim C5 (corrected) -/

/-- Counterexample to claim C5: on a label list whose minority (downbeat)
labels sit 13 apart, `inferBeatsPerBar` returns `beatsPerBar = 13`, which
is an integer outside `[2,12]` and not null; and on a 7-event list it
still returns a definite meter (3) instead of skipping refinement and
reporting the meter unknown. -/
theorem inferBeatsPerBar_counterexample :
    (inferBeatsPerBar ([1] ++ List.replicate 12 0 ++ [1] ++ List.replicate 12 0 ++ [1])).1 = 13
    ∧ ¬ ((inferBeatsPerBar
        ([1] ++ List.replicate 12 0 ++ [1] ++ List.replicate 12 0 ++ [1])).1 ≤ 12)
    ∧ (inferBeatsPerBar [1, 0, 0, 1, 0, 0, 1]).1 = 3 := by
  decide

/-- Claim C5, amended: for every input label list, `inferBeatsPerBar`
always returns an integer `beatsPerBar` in `[2,16]` (the mode of the
minority-label index gaps restricted to that range, defaulting to 4);
it never returns null and has no fewer-than-8-events refinement skip. -/
theorem inferBeatsPerBar_range (labels : List ℕ) :
    2 ≤ (inferBeatsPerBar labels).1 ∧ (inferBeatsPerBar labels).1 ≤ 16 := by
  unfold inferBeatsPerBar
  simp only []
  split <;> split
  · exact ⟨by norm_num, by norm_num⟩
  · refine modeFold_range _ _ _ (by norm_num) (by norm_num) ?_
    intro g hg
    have hv := dedupFirstGo_subset _ [] g hg
    simp only [List.not_mem_nil, false_or] at hv
    have hf := List.mem_filter.1 hv
    simpa using hf.2
  · exact ⟨by norm_num, by norm_num⟩
  · refine modeFold_range _ _ _ (by norm_num) (by norm_num) ?_
    intro g hg
    have hv := dedupFirstGo_subset _ [] g hg
    simp only [List.not_mem_nil, false_or] at hv
    have hf := List.mem_filter.1 hv
    simpa using hf.2

/-! ### Claim C7 (corrected) -/

/-- Counterexample to claim C7: on a constant centroid list every event is
assigned to cluster 0, so cluster 1 ends with zero members — the clusterer
does collapse a cluster to zero members (only the empty cluster's center
is retained, not any membership). -/
theorem kmeans_empty_cluster_counterexample :
    clusterSize0 [⟨0, 5⟩, ⟨1, 5⟩, ⟨2, 5⟩] = 3
    ∧ clusterSize1 [⟨0, 5⟩, ⟨1, 5⟩, ⟨2, 5⟩] = 0
    ∧ classifyByCentroidKMeans [⟨0, 5⟩, ⟨1, 5⟩, ⟨2, 5⟩] ≠ [] := by
  decide

/-- Claim C7, amended: the 2-means assignment partitions the values (the
two cluster sizes sum to the total), the iteration is capped, and when a
cluster is empty the update retains its previous center — but a cluster
may nevertheless end with zero members. -/
theorem kmeans_partition_retention (values : List ℚ) (c0 c1 : ℚ) :
    (values.filter (fun v => inC0 c0 c1 v)).length
      + (values.filter (fun v => !inC0 c0 c1 v)).length = values.length
    ∧ ((values.filter (fun v => inC0 c0 c1 v)).length = 0 →
        (kmeansUpdate values c0 c1).1 = c0)
    ∧ ((values.filter (fun v => !inC0 c0 c1 v)).length = 0 →
        (kmeansUpdate values c0 c1).2 = c1) := by
  refine ⟨length_filter_partition values _, ?_, ?_⟩
  · intro h
    simp [kmeansUpdate, h]
  · intro h
    simp [kmeansUpdate, h]

/-- Witness for `kmeans_partition_retention` at a concrete input with an
empty cluster 1. -/
theorem kmeans_partition_retention_witness :
    (kmeansUpdate [5, 5, 5] 5 5).2 = 5 :=
  (kmeans_partition_retention [5, 5, 5] 5 5).2.2 (by decide)

/-! ### Claim C10 (confirmed) -/

/-- The update `kmeansUpdate` fixes equal centers on a singleton value list. -/
theorem kmeansUpdate_single (v : ℚ) : kmeansUpdate [v] v v = (v, v) := by
  simp [kmeansUpdate, inC0_same]

/-- The centers `finalCenters` of a single event are both its centroid. -/
theorem finalCenters_single (t v : ℚ) : finalCenters [⟨t, v⟩] = (v, v) := by
  unfold finalCenters
  norm_num [List.insertionSort, List.orderedInsert]
  rw [kmeansLoop]
  norm_num [kmeansUpdate_single]

/-- Claim C10: the clustering/classification stage is total at its
boundary edge cases: the empty event list yields the empty labeled list,
and a single event yields exactly one labeled event (marked as a
non-downbeat, since the singleton cluster 0 is not strictly smaller). -/
theorem classify_edge_cases :
    classifyByCentroidKMeans ([] : List FeatureEvent) = []
    ∧ ∀ t v : ℚ, classifyByCentroidKMeans [⟨t, v⟩] = [⟨t, v, false⟩] := by
  refine ⟨rfl, fun t v => ?_⟩
  unfold classifyByCentroidKMeans clusterSize0 clusterSize1
  rw [finalCenters_single t v]
  simp [inC0_same]

/-! ### Detection lemmas -/

/-- The refinement fold never returns an index below the window start. -/
theorem foldl_peak_fst_lb (s : List ℚ) (lo : ℕ) :
    ∀ (l : List ℕ) (acc : ℕ × ℚ), (∀ i ∈ l, lo ≤ i) → lo ≤ acc.1 →
      lo ≤ (l.foldl (fun best i => if |s.getD i 0| > best.2 then (i, |s.getD i 0|) else best)
        acc).1 := by
  intro l
  induction l with
  | nil => intro acc _ h; simpa using h
  | cons x xs ih =>
    intro acc hl hacc
    simp only [List.foldl_cons]
    by_cases hx : |s.getD x 0| > acc.2
    · rw [if_pos hx]
      exact ih _ (fun i hi => hl i (List.mem_cons_of_mem _ hi)) (hl x (List.mem_cons_self _ _))
    · rw [if_neg hx]
      exact ih _ (fun i hi => hl i (List.mem_cons_of_mem _ hi)) hacc

/-- The refined index moves at most `half` samples backward. -/
theorem refine_lb (s : List ℚ) (j half : ℕ) : j ≤ refineToLocalPeak s j half + half := by
  have h : j - half ≤ refineToLocalPeak s j half := by
    unfold refineToLocalPeak
    refine foldl_peak_fst_lb s (j - half) _ _ ?_ ?_
    · intro i hi
      exact (List.mem_range'_1.1 hi).1
    · exact Nat.sub_le _ _
  omega

/-- A successful trigger lies at or after the scan start and inside the
buffer. -/
theorem findTrigger_eq_some (s : List ℚ) (thr : ℚ) (start j : ℕ)
    (h : findTrigger s thr start = some j) : start ≤ j ∧ j < s.length := by
  unfold findTrigger at h
  have h1 := List.find?_some h
  have h2 := List.mem_of_find?_eq_some h
  simp only [Bool.and_eq_true, decide_eq_true_eq] at h1
  exact ⟨h1.1, List.mem_range.1 h2⟩

/-- Every refined click index is within `half` of a scan start at or
before it. -/
theorem detectAux_cons_lb (s : List ℚ) (thr : ℚ) (minGap half : ℕ) :
    ∀ (fuel start r : ℕ) (rest : List ℕ),
      detectAux s thr minGap half fuel start = r :: rest → start ≤ r + half := by
  intro fuel start r rest h
  cases fuel with
  | zero => simp [detectAux] at h
  | succ n =>
    cases hft : findTrigger s thr start with
    | none => simp [detectAux, hft] at h
    | some j =>
      simp only [detectAux, hft, List.cons.injEq] at h
      have hj := (findTrigger_eq_some s thr start j hft).1
      have hr := refine_lb s j half
      omega

/-- Consecutive refined click indices `a, b` always satisfy
`a + minGap < b + half`. -/
theorem detectAux_chain (s : List ℚ) (thr : ℚ) (minGap half : ℕ) :
    ∀ fuel start, List.Chain' (fun a b => a + minGap < b + half)
      (detectAux s thr minGap half fuel start) := by
  intro fuel
  induction fuel with
  | zero => intro start; simp [detectAux]
  | succ n ih =>
    intro start
    cases hft : findTrigger s thr start with
    | none => simp [detectAux, hft]
    | some j =>
      simp only [detectAux, hft]
      rw [List.chain'_cons']
      refine ⟨?_, ih _⟩
      intro y hy
      cases htail : detectAux s thr minGap half n (refineToLocalPeak s j half + minGap + 1) with
      | nil => rw [htail] at hy; simp at hy
      | cons b rest =>
        rw [htail] at hy
        simp only [List.head?_cons, Option.mem_def, Option.some.injEq] at hy
        have hlb := detectAux_cons_lb s thr minGap half n _ b rest htail
        omega

/-- The refinement half-window never exceeds the minimum-gap sample
count: `⌊⌊0.01 sr⌋/2⌋ ≤ ⌊0.08 sr⌋`. -/
theorem refineHalf_le_minGap (sr : ℕ) : refineHalf sr ≤ minGapSamples sr := by
  unfold refineHalf refineWindow minGapSamples
  have h1 : sr / 100 / 2 = sr / 200 := by rw [Nat.div_div_eq_div_mul]
  have h3 : 16 * sr / 200 = 2 * sr / 25 := by
    have h4 : 16 * sr = 8 * (2 * sr) := by ring
    have h5 : (200 : ℕ) = 8 * 25 := by norm_num
    rw [h4, h5, Nat.mul_div_mul_left _ _ (by norm_num)]
  have h2 : sr / 200 ≤ 16 * sr / 200 :=
    Nat.div_le_div_right (Nat.le_mul_of_pos_left _ (by norm_num))
  omega

/-! ### Claim C1 (corrected) -/

/-- The sample buffer of the gap counterexample: spikes at indices 10 and
86 and a lower spike at 91.  At 1000 Hz the scan first fires at index 10;
the next trigger is index 91 (gap 81 > 80 samples), but refinement walks
it back to the local peak at index 86, leaving a gap of 76 samples
= 0.076 s < 0.08 s between the two reported clicks. -/
def cexSamples : List ℚ :=
  List.replicate 10 0 ++ [1] ++ List.replicate 75 0 ++ [1] ++ List.replicate 4 0
    ++ [1/2] ++ List.replicate 5 0

set_option maxRecDepth 10000

/-- Counterexample to claim C1: `detectClicks` reports clicks at 0.010 s
and 0.086 s, whose gap 0.076 s is below `minGapSeconds = 0.08`, because
local-peak refinement moved the second click earlier. -/
theorem detectClicks_minGap_counterexample :
    detectClicks cexSamples 1000 = [1/100, 43/500]
    ∧ ¬ ((2 : ℚ)/25 ≤ 43/500 - 1/100) := by
  constructor
  · decide
  · norm_num

/-- Claim C1, amended: the click times are strictly increasing for every
buffer and sample rate, and consecutive gaps are at least
`(⌊0.08·sr⌋ + 1 - ⌊⌊0.01·sr⌋/2⌋)/sr` seconds (about 0.075 s), but not
necessarily `minGapSeconds = 0.08` s, since refinement can move a click
earlier by up to half the 10 ms refine window. -/
theorem detectClicks_strictMono_gap (s : List ℚ) (sr : ℕ) (hsr : 1 ≤ sr) :
    List.Chain' (· < ·) (detectClicks s sr)
    ∧ List.Chain' (fun a b =>
        ((minGapSamples sr : ℚ) + 1 - (refineHalf sr : ℚ)) / (sr : ℚ) ≤ b - a)
      (detectClicks s sr) := by
  have hchain := detectAux_chain s (maxAbs s * (7/20)) (minGapSamples sr) (refineHalf sr)
    s.length 0
  have hmh := refineHalf_le_minGap sr
  have hsr0 : (0 : ℚ) < (sr : ℚ) := by exact_mod_cast hsr
  constructor
  · unfold detectClicks
    simp only []
    refine (List.chain'_map (fun r : ℕ => (r : ℚ) / (sr : ℚ))).2 (hchain.imp ?_)
    intro a b hab
    have hnat : a < b := by omega
    exact (div_lt_div_iff_of_pos_right hsr0).2 (by exact_mod_cast hnat)
  · unfold detectClicks
    simp only []
    refine (List.chain'_map (fun r : ℕ => (r : ℚ) / (sr : ℚ))).2 (hchain.imp ?_)
    intro a b hab
    have h1 : a + minGapSamples sr + 1 ≤ b + refineHalf sr := by omega
    have h2 : (a : ℚ) + (minGapSamples sr : ℚ) + 1 ≤ (b : ℚ) + (refineHalf sr : ℚ) := by
      exact_mod_cast h1
    have hq : ((minGapSamples sr : ℚ) + 1 - (refineHalf sr : ℚ)) ≤ (b : ℚ) - (a : ℚ) := by
      linarith
    calc ((minGapSamples sr : ℚ) + 1 - (refineHalf sr : ℚ)) / (sr : ℚ)
        ≤ ((b : ℚ) - (a : ℚ)) / (sr : ℚ) := (div_le_div_iff_of_pos_right hsr0).2 hq
      _ = (b : ℚ) / (sr : ℚ) - (a : ℚ) / (sr : ℚ) := by rw [sub_div]

/-- Witness for `detectClicks_strictMono_gap` at a concrete buffer. -/
theorem detectClicks_strictMono_gap_witness :
    List.Chain' (· < ·) (detectClicks [1] 1000) :=
  (detectClicks_strictMono_gap [1] 1000 (by norm_num)).1

/-! ### Claim C8 (corrected) -/

/-- The fold computing `maxAbs` never drops below its initial value. -/
theorem foldl_max_init_le : ∀ (l : List ℚ) (a : ℚ),
    a ≤ l.foldl (fun m v => max m |v|) a := by
  intro l
  induction l with
  | nil => intro a; simp
  | cons x xs ih =>
    intro a
    simp only [List.foldl_cons]
    exact le_trans (le_max_left a |x|) (ih (max a |x|))

/-- Every element's magnitude is bounded by the `maxAbs` fold. -/
theorem foldl_max_mem_le : ∀ (l : List ℚ) (a x : ℚ), x ∈ l →
    |x| ≤ l.foldl (fun m v => max m |v|) a := by
  intro l
  induction l with
  | nil => intro a x hx; simp at hx
  | cons y ys ih =>
    intro a x hx
    simp only [List.foldl_cons]
    rcases List.mem_cons.1 hx with h | h
    · subst h
      exact le_trans (le_max_right a |x|) (foldl_max_init_le ys (max a |x|))
    · exact ih _ x h

/-- The `maxAbs` fold either keeps its initial value or returns the
magnitude of some element. -/
theorem foldl_max_eq_init_or_mem : ∀ (l : List ℚ) (a : ℚ),
    l.foldl (fun m v => max m |v|) a = a
    ∨ ∃ y ∈ l, l.foldl (fun m v => max m |v|) a = |y| := by
  intro l
  induction l with
  | nil => intro a; exact Or.inl rfl
  | cons x xs ih =>
    intro a
    simp only [List.foldl_cons]
    rcases ih (max a |x|) with h | ⟨y, hy, heq⟩
    · rcases max_choice a |x| with hm | hm
      · exact Or.inl (by rw [h, hm])
      · exact Or.inr ⟨x, List.mem_cons_self _ _, by rw [h, hm]⟩
    · exact Or.inr ⟨y, List.mem_cons_of_mem _ hy, heq⟩

/-- Every element's magnitude is bounded by the buffer's peak. -/
theorem le_maxAbs (s : List ℚ) (x : ℚ) (hx : x ∈ s) : |x| ≤ maxAbs s :=
  foldl_max_mem_le s 0 x hx

/-- The peak is zero or the magnitude of some element. -/
theorem maxAbs_cases (s : List ℚ) : maxAbs s = 0 ∨ ∃ y ∈ s, maxAbs s = |y| :=
  foldl_max_eq_init_or_mem s 0

/-- Counterexample to claim C8: a buffer whose peak is `1e-9` — far below
any plausible "small epsilon" such as `1e-6` — still produces a click,
because the detection threshold is purely relative (`0.35 × peak`) and the
code has no absolute epsilon test. -/
theorem detectClicks_small_peak_counterexample :
    maxAbs [(1 : ℚ)/1000000000] < 1/1000000
    ∧ detectClicks [(1 : ℚ)/1000000000] 1000 ≠ [] := by
  constructor
  · decide
  · decide

/-- Claim C8, amended: the click list is empty exactly when the buffer is
identically zero (there is no near-silence epsilon: any nonzero peak
yields a click); on the empty click list the downstream stages return
empty results without error. -/
theorem detectClicks_empty_iff_silent (s : List ℚ) (sr : ℕ) :
    (detectClicks s sr = [] ↔ ∀ x ∈ s, x = 0)
    ∧ classifyByCentroidKMeans [] = []
    ∧ computeBpmPerBeat [] = []
    ∧ ∀ tol : ℚ, ∀ win : ℕ, segmentTempo [] tol win = [] := by
  refine ⟨⟨?_, ?_⟩, rfl, rfl, fun tol win => rfl⟩
  · intro hempty
    by_contra hnz
    push_neg at hnz
    obtain ⟨x, hxs, hx0⟩ := hnz
    have hx : 0 < |x| := abs_pos.2 hx0
    have hmax : |x| ≤ maxAbs s := le_maxAbs s x hxs
    have hpos : 0 < maxAbs s := lt_of_lt_of_le hx hmax
    rcases maxAbs_cases s with h0 | ⟨y, hy, hyeq⟩
    · exact absurd (show maxAbs s = 0 from h0) (ne_of_gt hpos)
    · have hthr : maxAbs s * (7/20) < |y| := by
        have : maxAbs s = |y| := hyeq
        nlinarith
      obtain ⟨k, hk, hky⟩ := List.mem_iff_getElem.1 hy
      have hfind : findTrigger s (maxAbs s * (7/20)) 0 ≠ none := by
        unfold findTrigger
        rw [Ne, List.find?_eq_none]
        push_neg
        refine ⟨k, List.mem_range.2 hk, ?_⟩
        simp only [Bool.and_eq_true, decide_eq_true_eq]
        refine ⟨Nat.zero_le _, ?_⟩
        rw [List.getD_eq_getElem _ _ hk, hky]
        exact hthr
      obtain ⟨j, hj⟩ := Option.ne_none_iff_exists'.1 hfind
      have hlen : s.length ≠ 0 := by
        intro h
        exact absurd (List.length_eq_zero.1 h ▸ hxs) (List.not_mem_nil x)
      unfold detectClicks at hempty
      simp only [] at hempty
      cases hsl : s.length with
      | zero => exact hlen hsl
      | succ m =>
        rw [hsl] at hempty
        simp [detectAux, hj] at hempty
  · intro hz
    have hmax : maxAbs s = 0 := by
      rcases maxAbs_cases s with h0 | ⟨y, hy, hyeq⟩
      · exact h0
      · rw [hyeq, hz y hy, abs_zero]
    have hfind : ∀ start, findTrigger s (maxAbs s * (7/20)) start = none := by
      intro start
      unfold findTrigger
      rw [List.find?_eq_none]
      intro j hjr
      simp only [Bool.and_eq_true, decide_eq_true_eq, not_and]
      intro _
      have hjl : j < s.length := List.mem_range.1 hjr
      have hj0 : s.getD j 0 = 0 := by
        rw [List.getD_eq_getElem _ _ hjl]
        exact hz _ (List.getElem_mem hjl)
      rw [hj0, hmax, abs_zero]
      norm_num
    unfold detectClicks
    simp only []
    cases s.length with
    | zero => rfl
    | succ m => simp [detectAux, hfind 0]

/-- Witness for `detectClicks_empty_iff_silent` at a concrete silent
buffer. -/
theorem detectClicks_empty_iff_silent_witness :
    detectClicks [(0 : ℚ), 0, 0] 44100 = [] :=
  (detectClicks_empty_iff_silent [0, 0, 0] 44100).1.mpr (by decide)

/-! ### Segmentation lemmas -/

/-- Placeholder segment used as the default of `headD`/`getLastD`. -/
def dSeg : Segment := ⟨0, 0, 0, 0, 0⟩

/-- The segment builder never returns an empty list. -/
theorem buildFrom_ne_nil (clicks sm : List ℚ) (tol : ℚ) :
    ∀ fuel i segStart cur, buildFrom clicks sm tol fuel i segStart cur ≠ [] := by
  intro fuel
  induction fuel with
  | zero => intro i segStart cur; simp [buildFrom]
  | succ n ih =>
    intro i segStart cur
    by_cases hi : i < sm.length
    · by_cases hdev : tol < |sm.getD i 0 - cur|
      · simp only [buildFrom]
        rw [if_pos hi, if_pos hdev]
        simp
      · simp only [buildFrom]
        rw [if_pos hi, if_neg hdev]
        exact ih (i + 1) segStart cur
    · simp only [buildFrom]
      rw [if_neg hi]
      simp

/-- The first emitted segment always starts at the current segment-start
click. -/
theorem buildFrom_head_start (clicks sm : List ℚ) (tol : ℚ) :
    ∀ fuel i segStart cur,
      ((buildFrom clicks sm tol fuel i segStart cur).headD dSeg).startTime
        = clicks.getD segStart 0 := by
  intro fuel
  induction fuel with
  | zero => intro i segStart cur; simp [buildFrom, finalSeg]
  | succ n ih =>
    intro i segStart cur
    by_cases hi : i < sm.length
    · by_cases hdev : tol < |sm.getD i 0 - cur|
      · simp only [buildFrom]
        rw [if_pos hi, if_pos hdev]
        simp [breakSeg]
      · simp only [buildFrom]
        rw [if_pos hi, if_neg hdev]
        exact ih (i + 1) segStart cur
    · simp only [buildFrom]
      rw [if_neg hi]
      simp [finalSeg]

/-- Applying `getLastD` to a nonempty list ignores its default. -/
theorem getLastD_irrel {α : Type} (l : List α) (h : l ≠ []) (a b : α) :
    l.getLastD a = l.getLastD b := by
  cases l with
  | nil => exact absurd rfl h
  | cons x xs => rw [List.getLastD_cons, List.getLastD_cons]

/-- The last emitted segment always ends at the last click. -/
theorem buildFrom_last_end (clicks sm : List ℚ) (tol : ℚ) :
    ∀ fuel i segStart cur,
      ((buildFrom clicks sm tol fuel i segStart cur).getLastD dSeg).endTime
        = clicks.getD (clicks.length - 1) 0 := by
  intro fuel
  induction fuel with
  | zero => intro i segStart cur; simp [buildFrom, finalSeg]
  | succ n ih =>
    intro i segStart cur
    by_cases hi : i < sm.length
    · by_cases hdev : tol < |sm.getD i 0 - cur|
      · simp only [buildFrom]
        rw [if_pos hi, if_pos hdev, List.getLastD_cons]
        rw [getLastD_irrel _ (buildFrom_ne_nil clicks sm tol n (i + 1) i (sm.getD i 0)) _ dSeg]
        exact ih (i + 1) i (sm.getD i 0)
      · simp only [buildFrom]
        rw [if_pos hi, if_neg hdev]
        exact ih (i + 1) segStart cur
    · simp only [buildFrom]
      rw [if_neg hi]
      simp [finalSeg]

/-- Consecutive emitted segments share their boundary click. -/
theorem buildFrom_boundary_chain (clicks sm : List ℚ) (tol : ℚ) :
    ∀ fuel i segStart cur,
      List.Chain' (fun a b => a.endTime = b.startTime)
        (buildFrom clicks sm tol fuel i segStart cur) := by
  intro fuel
  induction fuel with
  | zero => intro i segStart cur; simp [buildFrom]
  | succ n ih =>
    intro i segStart cur
    by_cases hi : i < sm.length
    · by_cases hdev : tol < |sm.getD i 0 - cur|
      · simp only [buildFrom]
        rw [if_pos hi, if_pos hdev]
        rw [List.chain'_cons']
        refine ⟨?_, ih (i + 1) i (sm.getD i 0)⟩
        intro y hy
        cases htail : buildFrom clicks sm tol n (i + 1) i (sm.getD i 0) with
        | nil => rw [htail] at hy; simp at hy
        | cons b rest =>
          rw [htail] at hy
          simp only [List.head?_cons, Option.mem_def, Option.some.injEq] at hy
          subst hy
          have hhead := buildFrom_head_start clicks sm tol n (i + 1) i (sm.getD i 0)
          rw [htail] at hhead
          simpa [breakSeg] using hhead.symm
      · simp only [buildFrom]
        rw [if_pos hi, if_neg hdev]
        exact ih (i + 1) segStart cur
    · simp only [buildFrom]
      rw [if_neg hi]
      simp

/-- Pairwise-increasing clicks give strictly increasing `getD` values. -/
theorem getD_strict (clicks : List ℚ) (hp : List.Pairwise (· < ·) clicks)
    (a b : ℕ) (hab : a < b) (hb : b < clicks.length) :
    clicks.getD a 0 < clicks.getD b 0 := by
  have ha : a < clicks.length := lt_trans hab hb
  rw [List.getD_eq_getElem _ _ ha, List.getD_eq_getElem _ _ hb]
  exact List.pairwise_iff_getElem.1 hp a b ha hb hab

/-- Every emitted segment runs strictly forward in time when the clicks
are strictly increasing. -/
theorem buildFrom_start_lt_end (clicks sm : List ℚ) (tol : ℚ)
    (hp : List.Pairwise (· < ·) clicks) (h2 : 2 ≤ clicks.length)
    (hsm : sm.length ≤ clicks.length - 1) :
    ∀ fuel i segStart cur, segStart + 1 ≤ i → segStart ≤ clicks.length - 2 →
      ∀ seg ∈ buildFrom clicks sm tol fuel i segStart cur,
        seg.startTime < seg.endTime := by
  intro fuel
  induction fuel with
  | zero =>
    intro i segStart cur h1 hseg2 seg hseg
    simp only [buildFrom, List.mem_singleton] at hseg
    subst hseg
    exact getD_strict clicks hp _ _ (by omega) (by omega)
  | succ n ih =>
    intro i segStart cur h1 hseg2 seg hseg
    by_cases hi : i < sm.length
    · by_cases hdev : tol < |sm.getD i 0 - cur|
      · simp only [buildFrom] at hseg
        rw [if_pos hi, if_pos hdev] at hseg
        rcases List.mem_cons.1 hseg with hseg | hseg
        · subst hseg
          exact getD_strict clicks hp _ _ (by omega) (by omega)
        · exact ih (i + 1) i (sm.getD i 0) (by omega) (by omega) seg hseg
      · simp only [buildFrom] at hseg
        rw [if_pos hi, if_neg hdev] at hseg
        exact ih (i + 1) segStart cur (by omega) hseg2 seg hseg
    · simp only [buildFrom] at hseg
      rw [if_neg hi] at hseg
      rw [List.mem_singleton] at hseg
      subst hseg
      exact getD_strict clicks hp _ _ (by omega) (by omega)

/-- Boundary-sharing segments with forward time spans have strictly
increasing start times. -/
theorem chain_startTime_lt (l : List Segment)
    (hb : List.Chain' (fun a b => a.endTime = b.startTime) l)
    (hs : ∀ seg ∈ l, seg.startTime < seg.endTime) :
    List.Chain' (fun a b => a.startTime < b.startTime) l := by
  induction l with
  | nil => simp
  | cons a l ih =>
    rw [List.chain'_cons'] at hb ⊢
    refine ⟨?_, ih hb.2 (fun seg hseg => hs seg (List.mem_cons_of_mem _ hseg))⟩
    intro y hy
    have hae := hb.1 y hy
    have hlt := hs a (List.mem_cons_self _ _)
    rwa [hae] at hlt

/-- The filter `smoothBpms` preserves the length of the BPM series. -/
theorem smoothBpms_length (b : List ℚ) (w : ℕ) : (smoothBpms b w).length = b.length := by
  simp [smoothBpms]

/-- The instantaneous BPM series has one entry per click interval. -/
theorem instBpms_length (c : List ℚ) : (instBpms c).length = c.length - 1 := by
  simp only [instBpms, List.length_map, List.length_zip, List.length_tail]
  omega

/-! ### Claim C2 (confirmed) -/

/-- Claim C2: for every strictly increasing click list with at least two
clicks, `segmentTempo` returns a nonempty, gap-free, non-overlapping
ordered segment list: the first segment starts at the first click, the
last ends at the last click, consecutive segments share their boundary,
every segment's start is strictly before its end, and start times strictly
increase. -/
theorem segmentTempo_partition (clicks : List ℚ) (tol : ℚ) (win : ℕ)
    (hp : List.Pairwise (· < ·) clicks) (h2 : 2 ≤ clicks.length) :
    segmentTempo clicks tol win ≠ []
    ∧ ((segmentTempo clicks tol win).headD dSeg).startTime = clicks.getD 0 0
    ∧ ((segmentTempo clicks tol win).getLastD dSeg).endTime
        = clicks.getD (clicks.length - 1) 0
    ∧ List.Chain' (fun a b => a.endTime = b.startTime) (segmentTempo clicks tol win)
    ∧ (∀ seg ∈ segmentTempo clicks tol win, seg.startTime < seg.endTime)
    ∧ List.Chain' (fun a b => a.startTime < b.startTime) (segmentTempo clicks tol win) := by
  have hlen : (smoothBpms (instBpms clicks) win).length = clicks.length - 1 := by
    rw [smoothBpms_length, instBpms_length]
  have hnotlt : ¬ clicks.length < 2 := by omega
  unfold segmentTempo
  rw [if_neg hnotlt]
  simp only []
  have hslt := buildFrom_start_lt_end clicks (smoothBpms (instBpms clicks) win) tol hp h2
    (le_of_eq hlen) (smoothBpms (instBpms clicks) win).length 1 0
    ((smoothBpms (instBpms clicks) win).getD 0 0) (by omega) (by omega)
  have hbch := buildFrom_boundary_chain clicks (smoothBpms (instBpms clicks) win) tol
    (smoothBpms (instBpms clicks) win).length 1 0
    ((smoothBpms (instBpms clicks) win).getD 0 0)
  refine ⟨buildFrom_ne_nil _ _ _ _ _ _ _,
    buildFrom_head_start _ _ _ _ _ _ _,
    buildFrom_last_end _ _ _ _ _ _ _,
    hbch, hslt, chain_startTime_lt _ hbch hslt⟩

/-- Witness for `segmentTempo_partition` at a concrete click list. -/
theorem segmentTempo_partition_witness :
    segmentTempo [0, 1/2, 1, (3 : ℚ)/2] 1 5 ≠ [] :=
  (segmentTempo_partition [0, 1/2, 1, (3 : ℚ)/2] 1 5 (by decide) (by decide)).1

/-! ### Claim C3 (corrected) -/

/-- When every smoothed BPM before index `i` stays inside the tolerance
band around the running BPM and index `i` leaves it, the loop emits a
segment ending exactly at click `i` — the first out-of-tolerance beat
closes the segment by itself. -/
theorem buildFrom_first_dev (clicks sm : List ℚ) (tol : ℚ) (i : ℕ)
    (him : i < sm.length) (segStart : ℕ) (cur : ℚ) :
    ∀ fuel i0, i0 ≤ i → sm.length ≤ fuel + i0 →
      (∀ j, j < i → i0 ≤ j → ¬ tol < |sm.getD j 0 - cur|) →
      tol < |sm.getD i 0 - cur| →
      ((buildFrom clicks sm tol fuel i0 segStart cur).headD dSeg
          = breakSeg clicks segStart i cur)
      ∧ 2 ≤ (buildFrom clicks sm tol fuel i0 segStart cur).length := by
  intro fuel
  induction fuel with
  | zero =>
    intro i0 h0 hfu _ _
    omega
  | succ n ih =>
    intro i0 h0 hfu hbef hdev
    have hi0m : i0 < sm.length := lt_of_le_of_lt h0 him
    rcases eq_or_lt_of_le h0 with heq | hlt
    · subst heq
      simp only [buildFrom]
      rw [if_pos hi0m, if_pos hdev]
      simp only [List.headD_cons, List.length_cons]
      refine ⟨trivial, ?_⟩
      have hne := buildFrom_ne_nil clicks sm tol n (i0 + 1) i0 (sm.getD i0 0)
      have hpos := List.length_pos.2 hne
      omega
    · have hstep : ¬ tol < |sm.getD i0 0 - cur| := hbef i0 hlt le_rfl
      have hrw : buildFrom clicks sm tol (n + 1) i0 segStart cur
          = buildFrom clicks sm tol n (i0 + 1) segStart cur := by
        simp only [buildFrom]
        rw [if_pos hi0m, if_neg hstep]
      rw [hrw]
      exact ih (i0 + 1) hlt (by omega) (fun j hj1 hj2 => hbef j hj1 (by omega)) hdev

/-- Claim C3, amended: there is no debouncing — a single smoothed BPM
deviating from the running BPM by more than the tolerance immediately
closes the current segment.  If the beats after the first are within
tolerance of the initial running BPM up to index `i`, and index `i`
deviates, the first emitted segment ends exactly at click `i` and at least
one further segment follows. -/
theorem segmentTempo_first_deviation_closes (clicks : List ℚ) (tol : ℚ) (win i : ℕ)
    (h2 : 2 ≤ clicks.length) (hi1 : 1 ≤ i)
    (him : i < (smoothBpms (instBpms clicks) win).length)
    (hbef : ∀ j, j < i → 1 ≤ j →
      ¬ tol < |(smoothBpms (instBpms clicks) win).getD j 0
          - (smoothBpms (instBpms clicks) win).getD 0 0|)
    (hdev : tol < |(smoothBpms (instBpms clicks) win).getD i 0
          - (smoothBpms (instBpms clicks) win).getD 0 0|) :
    ((segmentTempo clicks tol win).headD dSeg
        = breakSeg clicks 0 i ((smoothBpms (instBpms clicks) win).getD 0 0))
    ∧ 2 ≤ (segmentTempo clicks tol win).length := by
  unfold segmentTempo
  rw [if_neg (by omega)]
  simp only []
  exact buildFrom_first_dev clicks (smoothBpms (instBpms clicks) win) tol i him 0
    ((smoothBpms (instBpms clicks) win).getD 0 0)
    (smoothBpms (instBpms clicks) win).length 1 hi1 (by omega) hbef hdev

/-- A click train holding 120 BPM for six intervals and then 150 BPM:
the smoothed series leaves tolerance for the first time at index 6. -/
def cexClicks : List ℚ := [0, 1/2, 1, 3/2, 2, 5/2, 3, 17/5, 19/5, 21/5, 23/5, 5]

/-- Witness for `segmentTempo_first_deviation_closes` at the concrete
tempo-step click train. -/
theorem segmentTempo_first_deviation_closes_witness :
    ((segmentTempo cexClicks 1 5).headD dSeg
        = breakSeg cexClicks 0 6 ((smoothBpms (instBpms cexClicks) 5).getD 0 0))
    ∧ 2 ≤ (segmentTempo cexClicks 1 5).length :=
  segmentTempo_first_deviation_closes cexClicks 1 5 6 (by decide) (by decide) (by decide)
    (by decide) (by decide)

/-- Counterexample to claim C3: on the tempo-step click train the smoothed
BPM at index 5 is still within tolerance of the running BPM while index 6
deviates, and `segmentTempo` closes the first segment exactly at click 6 —
a single out-of-tolerance beat closed the segment, with no
`debounceCount`-many consecutive deviating beats and no pending state. -/
theorem segmentTempo_no_debounce_counterexample :
    (¬ (1 : ℚ) < |(smoothBpms (instBpms cexClicks) 5).getD 5 0
        - (smoothBpms (instBpms cexClicks) 5).getD 0 0|)
    ∧ (1 : ℚ) < |(smoothBpms (instBpms cexClicks) 5).getD 6 0
        - (smoothBpms (instBpms cexClicks) 5).getD 0 0|
    ∧ segmentTempo cexClicks 1 5
        = [⟨0, 3, 120, 0, 6⟩, ⟨3, 5, 150, 6, 11⟩] := by
  refine ⟨by decide, by decide, by decide⟩

/-! ### Claim C4 (confirmed) -/

/-- Placeholder feature event used as a `getD` default. -/
def dFE : FeatureEvent := ⟨0, 0⟩

/-- Placeholder classified event used as a `getD` default. -/
def dCE : ClassifiedEvent := ⟨0, 0, false⟩

/-- Pointwise description of `classifyByCentroidKMeans`: each output event
keeps its time and centroid, and is a downbeat exactly when its cluster
index equals the smaller cluster's index. -/
theorem classify_getElem (events : List FeatureEvent) (hne : events ≠ []) (i : ℕ)
    (h1 : i < (classifyByCentroidKMeans events).length) (hi : i < events.length) :
    (classifyByCentroidKMeans events)[i] =
      ⟨events[i].time, events[i].centroid,
        (if inC0 (finalCenters events).1 (finalCenters events).2 events[i].centroid
            then (0 : ℕ) else 1)
          = (if clusterSize0 events ≤ clusterSize1 events then (0 : ℕ) else 1)⟩ := by
  simp [classifyByCentroidKMeans, if_neg hne, clusterSize0, clusterSize1]

/-- Claim C4: under the baseline minority rule, whenever the two clusters
have different sizes, an event is marked `isDownbeat` exactly when it lies
in the strictly smaller cluster. -/
theorem classify_minority_is_downbeat (events : List FeatureEvent) (i : ℕ)
    (hi : i < events.length) :
    (clusterSize0 events < clusterSize1 events →
      ((classifyByCentroidKMeans events).getD i dCE).isDownbeat
        = inC0 (finalCenters events).1 (finalCenters events).2
            ((events.getD i dFE).centroid))
    ∧ (clusterSize1 events < clusterSize0 events →
      ((classifyByCentroidKMeans events).getD i dCE).isDownbeat
        = !inC0 (finalCenters events).1 (finalCenters events).2
            ((events.getD i dFE).centroid)) := by
  have hne : events ≠ [] := by
    intro h
    rw [h] at hi
    simp at hi
  have hlen : (classifyByCentroidKMeans events).length = events.length := by
    simp [classifyByCentroidKMeans, if_neg hne]
  have h1 : i < (classifyByCentroidKMeans events).length := by omega
  rw [List.getD_eq_getElem _ _ h1, List.getD_eq_getElem _ _ hi,
    classify_getElem events hne i h1 hi]
  constructor
  · intro hlt
    rw [if_pos (le_of_lt hlt)]
    by_cases hc : inC0 (finalCenters events).1 (finalCenters events).2 events[i].centroid
    · simp [hc]
    · simp [hc]
  · intro hlt
    rw [if_neg (not_le_of_lt hlt)]
    by_cases hc : inC0 (finalCenters events).1 (finalCenters events).2 events[i].centroid
    · simp [hc]
    · simp [hc]

/-- Witness for `classify_minority_is_downbeat`: in a list with centroids
`[0, 0, 10]` the cluster of the lone bright event is the strictly smaller
one, and exactly that event is marked as the downbeat. -/
theorem classify_minority_is_downbeat_witness :
    ((classifyByCentroidKMeans [⟨0, 0⟩, ⟨1, 0⟩, ⟨2, 10⟩]).getD 2 dCE).isDownbeat
      = !inC0 (finalCenters [⟨0, 0⟩, ⟨1, 0⟩, ⟨2, 10⟩]).1
          (finalCenters [⟨0, 0⟩, ⟨1, 0⟩, ⟨2, 10⟩]).2
          (([⟨0, 0⟩, ⟨1, 0⟩, ⟨2, 10⟩].getD 2 dFE : FeatureEvent).centroid) :=
  (classify_minority_is_downbeat [⟨0, 0⟩, ⟨1, 0⟩, ⟨2, 10⟩] 2 (by decide)).2 (by decide)

/-! ### Claim C6 (confirmed) -/

/-- Membership in the grid set built from position `k` onward: exactly the
clicks whose position satisfies the grid congruence. -/
theorem gridSet_mem (n phase : ℕ) :
    ∀ (l : List ℕ) (k x : ℕ), x ∈ gridSet n phase k l ↔
      ∃ j : ℕ, ∃ h : j < l.length, (((k + j : ℕ) : ℤ) - phase) % n = 0 ∧ l[j] = x := by
  intro l
  induction l with
  | nil => intro k x; simp [gridSet]
  | cons c cs ih =>
    intro k x
    by_cases hc : ((k : ℤ) - phase) % n = 0
    · rw [show gridSet n phase k (c :: cs) = c :: gridSet n phase (k + 1) cs from by
        simp [gridSet, hc]]
      rw [List.mem_cons, ih (k + 1) x]
      constructor
      · rintro (rfl | ⟨j, hj, hcong, hget⟩)
        · exact ⟨0, by simp, by simpa using hc, by simp⟩
        · refine ⟨j + 1, by simpa using Nat.succ_lt_succ hj, ?_, by simpa using hget⟩
          show (((k + (j + 1) : ℕ) : ℤ) - phase) % n = 0
          rw [show k + (j + 1) = k + 1 + j from by omega]
          exact hcong
      · rintro ⟨j, hj, hcong, hget⟩
        cases j with
        | zero =>
          left
          simpa using hget.symm
        | succ j' =>
          right
          refine ⟨j', Nat.succ_lt_succ_iff.1 (by simpa using hj), ?_, by simpa using hget⟩
          show (((k + 1 + j' : ℕ) : ℤ) - phase) % n = 0
          rw [show k + 1 + j' = k + (j' + 1) from by omega]
          exact hcong
    · rw [show gridSet n phase k (c :: cs) = gridSet n phase (k + 1) cs from by
        simp [gridSet, hc]]
      rw [ih (k + 1) x]
      constructor
      · rintro ⟨j, hj, hcong, hget⟩
        refine ⟨j + 1, by simpa using Nat.succ_lt_succ hj, ?_, by simpa using hget⟩
        show (((k + (j + 1) : ℕ) : ℤ) - phase) % n = 0
        rw [show k + (j + 1) = k + 1 + j from by omega]
        exact hcong
      · rintro ⟨j, hj, hcong, hget⟩
        cases j with
        | zero =>
          exact absurd (by simpa using hcong) hc
        | succ j' =>
          refine ⟨j', Nat.succ_lt_succ_iff.1 (by simpa using hj), ?_, by simpa using hget⟩
          show (((k + 1 + j' : ℕ) : ℤ) - phase) % n = 0
          rw [show k + 1 + j' = k + (j' + 1) from by omega]
          exact hcong

/-- Claim C6: for clicks with pairwise-distinct sample indices, the
downbeat set chosen by `alignDownbeatsByPhase` marks the click at position
`i` exactly when `(i - p) mod N = 0` for the selected grid `(N, p)`. -/
theorem alignDownbeats_grid_congruence (clicksIdx labels : List ℕ) (bpb dl : ℕ)
    (hnd : clicksIdx.Nodup) (i : ℕ) (hi : i < clicksIdx.length) :
    clicksIdx.getD i 0 ∈ (alignDownbeatsByPhase clicksIdx labels bpb dl).2
      ↔ ((i : ℤ) - ((alignDownbeatsByPhase clicksIdx labels bpb dl).1 : ℤ))
          % (((if bpb < 2 then 4 else bpb) : ℕ) : ℤ) = 0 := by
  unfold alignDownbeatsByPhase
  simp only []
  rw [List.getD_eq_getElem _ _ hi]
  rw [gridSet_mem]
  constructor
  · rintro ⟨j, hj, hcong, hget⟩
    have hfin : (⟨j, hj⟩ : Fin clicksIdx.length) = ⟨i, hi⟩ := by
      apply (hnd.get_inj_iff).1
      rw [List.get_eq_getElem, List.get_eq_getElem]
      exact hget
    have hji : j = i := by simpa using hfin
    subst hji
    simpa using hcong
  · intro hcong
    exact ⟨i, hi, by simpa using hcong, rfl⟩

/-- Witness for `alignDownbeats_grid_congruence` at a concrete eight-click
4/4 pattern. -/
theorem alignDownbeats_grid_congruence_witness :
    [3, 7, 11, 15, 19, 23, 27, 31].getD 4 0
      ∈ (alignDownbeatsByPhase [3, 7, 11, 15, 19, 23, 27, 31]
          [1, 0, 0, 0, 1, 0, 0, 0] 4 1).2
      ↔ ((4 : ℤ) - ((alignDownbeatsByPhase [3, 7, 11, 15, 19, 23, 27, 31]
          [1, 0, 0, 0, 1, 0, 0, 0] 4 1).1 : ℤ))
          % (((if (4 : ℕ) < 2 then 4 else 4) : ℕ) : ℤ) = 0 :=
  alignDownbeats_grid_congruence [3, 7, 11, 15, 19, 23, 27, 31]
    [1, 0, 0, 0, 1, 0, 0, 0] 4 1 (by decide) 4 (by decide)

/-! ### Claim C9 (corrected) -/

/-- An FFT stand-in returning eight flat bins, used in the concrete
feature-extractor counterexample (the Web Audio analyser output is opaque
to the analysis code). -/
def fftConst : List ℚ → List ℚ := fun _ => List.replicate 8 0

/-- The constant-magnitude dB→linear stand-in. -/
def magOne : ℚ → ℚ := fun _ => 1

/-- A 2048-sample buffer: the analysis window at `t = 0` fits it exactly. -/
def bufZero : List ℚ := List.replicate 2048 0

/-- Counterexample to claim C9: at `t = 0` on a 2048-sample buffer the
window `[0, 2048)` lies fully inside the buffer, yet
`analyzeCentroidOffline` returns 0 without analyzing: the guard
`start + fftSize >= samples.length` also rejects the exactly-fitting
window, whose normal analysis result would be nonzero. -/
theorem analyzeCentroid_boundary_counterexample :
    (0 : ℤ) ≤ ⌊(0 : ℚ) * ((410 : ℕ) : ℚ)⌋
    ∧ ⌊(0 : ℚ) * ((410 : ℕ) : ℚ)⌋ + 2048 ≤ (bufZero.length : ℤ)
    ∧ analyzeCentroidOffline fftConst magOne bufZero 410 0 = 0
    ∧ spectralCentroid magOne (fftConst ((bufZero.drop 0).take 2048)) 410 2048 ≠ 0 := by
  have hfl : ⌊(0 : ℚ) * ((410 : ℕ) : ℚ)⌋ = 0 := by
    rw [zero_mul, Int.floor_zero]
  have hlen : bufZero.length = 2048 := by simp [bufZero]
  have hguard : ⌊(0 : ℚ) * ((410 : ℕ) : ℚ)⌋ < 0
      ∨ (bufZero.length : ℤ) ≤ ⌊(0 : ℚ) * ((410 : ℕ) : ℚ)⌋ + 2048 := by
    right
    rw [hfl, hlen]
    norm_num
  refine ⟨by rw [hfl], by rw [hfl, hlen]; norm_num, ?_, ?_⟩
  · unfold analyzeCentroidOffline
    simp only []
    rw [if_pos hguard]
  · show spectralCentroid magOne (List.replicate 8 0) 410 2048 ≠ 0
    decide

/-- Claim C9, amended: a click whose start index is negative or whose
window reaches `start + fftSize ≥ n` (including the exactly-fitting
window `start + fftSize = n`) gets centroid 0; only windows with
`start + fftSize < n` are analyzed normally; every click stays in the
event list with its time preserved. -/
theorem analyzeCentroid_guard (fft : List ℚ → List ℚ) (mag : ℚ → ℚ)
    (s : List ℚ) (sr : ℕ) (t : ℚ) (ts : List ℚ) :
    ((⌊t * (sr : ℚ)⌋ < 0 ∨ (s.length : ℤ) ≤ ⌊t * (sr : ℚ)⌋ + 2048) →
      analyzeCentroidOffline fft mag s sr t = 0)
    ∧ (0 ≤ ⌊t * (sr : ℚ)⌋ → ⌊t * (sr : ℚ)⌋ + 2048 < (s.length : ℤ) →
      analyzeCentroidOffline fft mag s sr t
        = spectralCentroid mag (fft ((s.drop (⌊t * (sr : ℚ)⌋).toNat).take 2048)) sr 2048)
    ∧ (analyzeAll fft mag s sr ts).length = ts.length
    ∧ ∀ i, i < ts.length →
        ((analyzeAll fft mag s sr ts).getD i dFE).time = ts.getD i 0 := by
  refine ⟨?_, ?_, by simp [analyzeAll], ?_⟩
  · intro h
    unfold analyzeCentroidOffline
    simp only []
    rw [if_pos h]
  · intro h1 h2
    unfold analyzeCentroidOffline
    simp only []
    rw [if_neg (by push_neg; exact ⟨h1, h2⟩)]
  · intro i hi
    have hlen : (analyzeAll fft mag s sr ts).length = ts.length := by simp [analyzeAll]
    rw [List.getD_eq_getElem _ _ (by omega), List.getD_eq_getElem _ _ hi]
    simp [analyzeAll]

/-- Witness for `analyzeCentroid_guard`: a click 3 s into a one-sample
buffer is out of range and gets centroid 0. -/
theorem analyzeCentroid_guard_witness :
    analyzeCentroidOffline fftConst magOne [(1 : ℚ)] 410 3 = 0 :=
  (analyzeCentroid_guard fftConst magOne [(1 : ℚ)] 410 3 []).1 (Or.inr (by decide))

/-- Witness for `classify_edge_cases` at a concrete single event. -/
theorem classify_edge_cases_witness :
    classifyByCentroidKMeans [⟨1, 2⟩] = [⟨1, 2, false⟩] :=
  classify_edge_cases.2 1 2

end ClickTrack
